import Mathlib

/-!
Verification of the marker-delimited section routines, the Q&A session-state
reconstruction, the editor fallback chain and the fuzzy-regex builder of the
pi-config extension bundle.

Strings are modelled as `List Char`; JavaScript `String.prototype.indexOf`
(first occurrence of a substring, `-1` mapped to `none`), `slice`, `trim`,
truthiness (`s || t`) and template literals are embedded explicitly below.
File reads (`readFileSync`) are modelled by passing the file's content
directly to the content-level function.
-/

namespace PiConfig

/-- JavaScript whitespace as used by `String.prototype.trim` (the ASCII part;
the routines under study only ever produce ASCII whitespace around sections). -/
def isWs (c : Char) : Bool :=
  c = ' ' || c = '\t' || c = '\n' || c = '\r' || c = '\x0b' || c = '\x0c'

/-- Model of `s.trim()`: drop whitespace from both ends. -/
def trimList (l : List Char) : List Char :=
  ((l.dropWhile isWs).reverse.dropWhile isWs).reverse

/-- Model of `s.slice(a, b)` for `a ≤ b` within range (the only way the code
under study calls it). -/
def sliceList (l : List Char) (a b : Nat) : List Char :=
  (l.drop a).take (b - a)

/-- Model of `hay.indexOf(needle)`: index of the first occurrence of `needle`
as a contiguous substring of `hay`, `none` when absent (JS returns `-1`). -/
def indexOfSub (needle : List Char) : List Char → Option Nat
  | [] => if needle.isPrefixOf [] then some 0 else none
  | c :: rest =>
    if needle.isPrefixOf (c :: rest) then some 0
    else (indexOfSub needle rest).map (· + 1)

/-- `needle` occurs in `hay` starting at position `p`. -/
def occursAt (needle hay : List Char) (p : Nat) : Prop :=
  needle <+: hay.drop p

/-- `p` is the index of the first occurrence of `needle` in `hay`. -/
def firstOccurAt (needle hay : List Char) (p : Nat) : Prop :=
  occursAt needle hay p ∧ ∀ q, q < p → ¬ occursAt needle hay q

instance (needle hay : List Char) (p : Nat) : Decidable (occursAt needle hay p) := by
  unfold occursAt; infer_instance

instance (needle hay : List Char) (p : Nat) : Decidable (firstOccurAt needle hay p) := by
  unfold firstOccurAt; infer_instance

-- ===========================================================================
-- Markers (editor-state.ts getQnaMarkers, edit-prompt extractSection)
-- ===========================================================================

/-- `<!-- prompt: ${timestamp} -->` (edit-prompt extension). -/
def promptStart (t : List Char) : List Char :=
  "<!-- prompt: ".toList ++ t ++ " -->".toList

/-- `<!-- prompt-end: ${timestamp} -->` (edit-prompt extension). -/
def promptEnd (t : List Char) : List Char :=
  "<!-- prompt-end: ".toList ++ t ++ " -->".toList

/-- `getQnaMarkers(t).questionsStart`. -/
def questionsStart (t : List Char) : List Char :=
  "<!-- QUESTIONS: ".toList ++ t ++ " -->".toList

/-- `getQnaMarkers(t).answersStart`. -/
def answersStart (t : List Char) : List Char :=
  "<!-- ANSWERS: ".toList ++ t ++ " -->".toList

/-- `getQnaMarkers(t).sectionEnd`. -/
def sectionEnd (t : List Char) : List Char :=
  "<!-- /QUESTIONS: ".toList ++ t ++ " -->".toList

/-- All five timestamp-scoped markers used by the two extensions. -/
def allMarkers (t : List Char) : List (List Char) :=
  [promptStart t, promptEnd t, questionsStart t, answersStart t, sectionEnd t]

/-- The common shape of every marker: a literal head (starting with `<`),
the timestamp, and the closing literal ` -->`. Each of the five markers is
definitionally `markerOf` of its head literal. -/
def markerOf (pre t : List Char) : List Char :=
  pre ++ (t ++ " -->".toList)

/-- Characters that can appear in a `generateTimestamp()` output
(`YYYY-MM-DDTHH:MM:SS`): digits, `-`, `:` and `T`. -/
def isTimestampChar (c : Char) : Bool :=
  c.isDigit || c = '-' || c = ':' || c = 'T'

/-- A string of the shape produced by `generateTimestamp()`:
`new Date().toISOString().slice(0, 19)` — 19 characters over the
digits/`-`/`:`/`T` alphabet. -/
def isTimestampFormat (t : List Char) : Prop :=
  t.length = 19 ∧ ∀ c ∈ t, isTimestampChar c

instance (t : List Char) : Decidable (isTimestampFormat t) := by
  unfold isTimestampFormat; infer_instance

-- ===========================================================================
-- extractSection (edit-prompt extension, content level)
-- ===========================================================================

/-- `extractSection(filepath, timestamp)` of the edit-prompt extension, at the
level of the file's content (the `existsSync`/`readFileSync` step supplies
`content`; a missing file yields the empty string before any marker search). -/
def extractSection (content : List Char) (timestamp : List Char) : List Char :=
  let startMarker := promptStart timestamp
  let endMarker := promptEnd timestamp
  match indexOfSub startMarker content with
  | none => []
  | some startIndex =>
    match indexOfSub endMarker content with
    | none => []
    | some endIndex =>
      let contentStart := startIndex + startMarker.length
      if endIndex ≤ contentStart then []
      else trimList (sliceList content contentStart endIndex)

-- ===========================================================================
-- extractQnaAnswers / verifyQnaQuestions / createQnaSection (editor-state.ts)
-- ===========================================================================

/-- `extractQnaAnswers(content, timestamp)`: `none` models JS `null`, and the
final `answers || null` maps the empty trimmed string to `null`. -/
def extractQnaAnswers (content : List Char) (timestamp : List Char) : Option (List Char) :=
  let aStart := answersStart timestamp
  let sEnd := sectionEnd timestamp
  match indexOfSub aStart content with
  | none => none
  | some answersIndex =>
    match indexOfSub sEnd content with
    | none => none
    | some endIndex =>
      let contentStart := answersIndex + aStart.length
      if endIndex ≤ contentStart then none
      else
        let answers := trimList (sliceList content contentStart endIndex)
        if answers = [] then none else some answers

/-- `createQnaSection(questions, timestamp)`: the template literal
`questionsStart\nquestions\nanswersStart\n\nsectionEnd`. -/
def createQnaSection (questions : List Char) (timestamp : List Char) : List Char :=
  questionsStart timestamp ++ '\n' :: questions ++ '\n' :: answersStart timestamp
    ++ '\n' :: '\n' :: sectionEnd timestamp

/-- `verifyQnaQuestions(content, timestamp, expectedQuestions)`. -/
def verifyQnaQuestions (content : List Char) (timestamp : List Char)
    (expectedQuestions : List Char) : Bool :=
  let qStart := questionsStart timestamp
  let aStart := answersStart timestamp
  match indexOfSub qStart content with
  | none => false
  | some questionsIndex =>
    match indexOfSub aStart content with
    | none => false
    | some answersIndex =>
      let contentStart := questionsIndex + qStart.length
      if answersIndex ≤ contentStart then false
      else decide (trimList (sliceList content contentStart answersIndex)
        = trimList expectedQuestions)

-- ===========================================================================
-- parseResponse (qna extension)
-- ===========================================================================

/-- The `DELIMITER` constant `"# Answers"` of the qna extension. -/
def answersDelimiter : List Char := "# Answers".toList

/-- `parseResponse(content)`: text after the `# Answers` delimiter, trimmed,
with `response || null` mapping the empty trimmed string to `null`. -/
def parseResponse (content : List Char) : Option (List Char) :=
  match indexOfSub answersDelimiter content with
  | none => none
  | some delimiterIndex =>
    let response := trimList (content.drop (delimiterIndex + answersDelimiter.length))
    if response = [] then none else some response

-- ===========================================================================
-- getEditor (editor-state.ts and qna extension, identical bodies)
-- ===========================================================================

/-- The environment variables `getEditor` consults; `none` models an unset
variable. -/
structure Env where
  editorVar : Option (List Char)
  visualVar : Option (List Char)

/-- JS `a || b` where `a` is `string | undefined`: `undefined` and the empty
string are falsy. -/
def jsOrEnv (a : Option (List Char)) (b : List Char) : List Char :=
  match a with
  | none => b
  | some s => if s = [] then b else s

/-- JS `a || b` where `a` is a string literal. -/
def jsOrLit (a b : List Char) : List Char :=
  if a = [] then b else a

/-- `getEditor()`: the exact chain
`process.env.EDITOR || process.env.VISUAL || "nvim" || "vim" || "vi"`. -/
def getEditor (env : Env) : List Char :=
  jsOrEnv env.editorVar
    (jsOrEnv env.visualVar
      (jsOrLit "nvim".toList (jsOrLit "vim".toList "vi".toList)))

-- ===========================================================================
-- buildFuzzyRegex (better-file-autocomplete.ts and edit-prompt, identical)
-- ===========================================================================

/-- The character class `[.*+?^${}()|[\]\\]` of the escaping replace call. -/
def isRegexMeta (c : Char) : Bool :=
  c = '.' || c = '*' || c = '+' || c = '?' || c = '^' || c = '$'
    || c = Char.ofNat 123 || c = Char.ofNat 125
    || c = '(' || c = ')' || c = '|' || c = '[' || c = ']' || c = '\\'

/-- `query.replace(/[.*+?^${}()|[\]\\]/g, "\\$&")`: prepend a backslash to
every regex metacharacter. -/
def escapeRegex (q : List Char) : List Char :=
  q.flatMap (fun c => if isRegexMeta c then ['\\', c] else [c])

/-- `escaped.split("").join(".*")`: interleave `.*` between consecutive
characters. -/
def joinDotStar : List Char → List Char
  | [] => []
  | [c] => [c]
  | c :: c' :: rest => c :: '.' :: '*' :: joinDotStar (c' :: rest)

/-- `buildFuzzyRegex(query)`. -/
def buildFuzzyRegex (q : List Char) : List Char :=
  joinDotStar (escapeRegex q)

-- ===========================================================================
-- qna session_start reconstruction (qna extension)
-- ===========================================================================

/-- A session-branch entry as seen by the qna `session_start` handler: a
`draft_questions` tool-result message (whose `details?.questions` field may be
absent), a `qna-clear` custom entry, or anything else. -/
inductive SessionEntry where
  | draftResult (details : Option (List Char)) : SessionEntry
  | qnaClear : SessionEntry
  | other : SessionEntry
deriving DecidableEq

/-- The loop state of the `session_start` handler. -/
structure QnaScanState where
  lastDraftedQuestions : Option (List Char)
  wasCleared : Bool
deriving DecidableEq

/-- One iteration of the chronological walk: `if (details?.questions)` keeps
only a present, non-empty (truthy) questions string; `qna-clear` sets
`wasCleared`. -/
def qnaScanStep (st : QnaScanState) (e : SessionEntry) : QnaScanState :=
  match e with
  | SessionEntry.draftResult (some qs) =>
    if qs = [] then st else ⟨some qs, false⟩
  | SessionEntry.draftResult none => st
  | SessionEntry.qnaClear => ⟨st.lastDraftedQuestions, true⟩
  | SessionEntry.other => st

/-- The `session_start` handler: walk the branch chronologically, then restore
`pendingQuestions` via `if (lastDraftedQuestions && !wasCleared)` (on every
reachable state `lastDraftedQuestions` is either `none` or a non-empty string,
so JS truthiness coincides with presence). -/
def reconstructPending (log : List SessionEntry) : Option (List Char) :=
  let st := log.foldl qnaScanStep ⟨none, false⟩
  match st.lastDraftedQuestions, st.wasCleared with
  | some qs, false => some qs
  | _, _ => none

/-- Specification of the reconstruction, scanning backwards: the questions of
the last `draft_questions` entry carrying a present, non-empty questions
string, unless a `qna-clear` entry occurs later in the log. -/
def specPendingAux : List SessionEntry → Option (List Char)
  | [] => none
  | SessionEntry.qnaClear :: _ => none
  | SessionEntry.draftResult (some qs) :: rest =>
    if qs = [] then specPendingAux rest else some qs
  | SessionEntry.draftResult none :: rest => specPendingAux rest
  | SessionEntry.other :: rest => specPendingAux rest

/-- The reconstruction specification, on the chronological log. -/
def specPending (log : List SessionEntry) : Option (List Char) :=
  specPendingAux log.reverse

/-- The claim's literal reading, scanning backwards: the questions of the last
`draft_questions` entry whatever they are (also when empty), unless a
`qna-clear` entry occurs later in the log. -/
def specPendingClaimAux : List SessionEntry → Option (List Char)
  | [] => none
  | SessionEntry.qnaClear :: _ => none
  | SessionEntry.draftResult (some qs) :: _ => some qs
  | SessionEntry.draftResult none :: rest => specPendingClaimAux rest
  | SessionEntry.other :: rest => specPendingClaimAux rest

/-- The claim's literal reading, on the chronological log. -/
def specPendingClaim (log : List SessionEntry) : Option (List Char) :=
  specPendingClaimAux log.reverse

-- ===========================================================================
-- Correctness of the indexOf model
-- ===========================================================================

theorem occursAt_zero_iff (n h : List Char) : occursAt n h 0 ↔ n <+: h := by
  simp [occursAt]

theorem occursAt_succ_iff (n : List Char) (c : Char) (r : List Char) (q : Nat) :
    occursAt n (c :: r) (q + 1) ↔ occursAt n r q := by
  simp [occursAt]

theorem occursAt_nil_iff (n : List Char) (p : Nat) : occursAt n [] p ↔ n = [] := by
  simp [occursAt]

/-- The model of `indexOf` returns `some p` exactly when `p` is the index of
the first occurrence of the needle. -/
theorem indexOfSub_eq_some_iff (needle hay : List Char) (p : Nat) :
    indexOfSub needle hay = some p ↔ firstOccurAt needle hay p := by
  induction hay generalizing p with
  | nil =>
    unfold indexOfSub
    by_cases hn : needle.isPrefixOf ([] : List Char)
    · rw [if_pos hn]
      rw [List.isPrefixOf_iff_prefix] at hn
      have hne : needle = [] := List.prefix_nil.mp hn
      subst hne
      constructor
      · intro h
        have hp : p = 0 := by injection h with h; omega
        subst hp
        exact ⟨(occursAt_nil_iff [] 0).mpr rfl, fun q hq => absurd hq (by omega)⟩
      · rintro ⟨_, hmin⟩
        by_cases hp : p = 0
        · subst hp; rfl
        · exact absurd ((occursAt_nil_iff [] 0).mpr rfl) (hmin 0 (by omega))
    · rw [if_neg hn]
      rw [List.isPrefixOf_iff_prefix] at hn
      constructor
      · intro h; exact absurd h (by simp)
      · rintro ⟨hocc, _⟩
        have hpe : needle <+: [] := by simpa [occursAt] using hocc
        exact absurd hpe hn
  | cons c rest ih =>
    unfold indexOfSub
    by_cases hn : needle.isPrefixOf (c :: rest)
    · rw [if_pos hn]
      rw [List.isPrefixOf_iff_prefix] at hn
      constructor
      · intro h
        have hp : p = 0 := by injection h with h; omega
        subst hp
        exact ⟨(occursAt_zero_iff needle _).mpr hn, fun q hq => absurd hq (by omega)⟩
      · rintro ⟨_, hmin⟩
        by_cases hp : p = 0
        · subst hp; rfl
        · exact absurd ((occursAt_zero_iff needle _).mpr hn) (hmin 0 (by omega))
    · rw [if_neg hn]
      rw [List.isPrefixOf_iff_prefix] at hn
      constructor
      · intro h
        rcases Option.map_eq_some'.mp h with ⟨q, hq, hqp⟩
        rcases (ih q).mp hq with ⟨hocc, hmin⟩
        subst hqp
        refine ⟨(occursAt_succ_iff needle c rest q).mpr hocc, ?_⟩
        intro r hr
        match r with
        | 0 => exact fun hc => hn ((occursAt_zero_iff needle _).mp hc)
        | r' + 1 =>
          exact fun hc => hmin r' (by omega) ((occursAt_succ_iff needle c rest r').mp hc)
      · rintro ⟨hocc, hmin⟩
        match p with
        | 0 => exact absurd ((occursAt_zero_iff needle _).mp hocc) hn
        | p' + 1 =>
          have : indexOfSub needle rest = some p' := by
            refine (ih p').mpr ⟨(occursAt_succ_iff needle c rest p').mp hocc, ?_⟩
            intro q hq hc
            exact hmin (q + 1) (by omega) ((occursAt_succ_iff needle c rest q).mpr hc)
          rw [this]; rfl

/-- A needle is a contiguous substring exactly when it occurs at some index. -/
theorem infix_iff_exists_occursAt (needle hay : List Char) :
    needle <:+: hay ↔ ∃ p, occursAt needle hay p := by
  constructor
  · rintro ⟨s, u, rfl⟩
    refine ⟨s.length, ?_⟩
    unfold occursAt
    rw [show s ++ needle ++ u = s ++ (needle ++ u) by simp, List.drop_left]
    exact List.prefix_append needle u
  · rintro ⟨p, hocc⟩
    rcases hocc with ⟨u, hu⟩
    exact ⟨hay.take p, u, by rw [List.append_assoc, hu, List.take_append_drop]⟩

/-- The model of `indexOf` returns `none` exactly when the needle does not
occur (JS `indexOf === -1`). -/
theorem indexOfSub_eq_none_iff (needle hay : List Char) :
    indexOfSub needle hay = none ↔ ¬ needle <:+: hay := by
  constructor
  · intro h hinf
    rcases (infix_iff_exists_occursAt needle hay).mp hinf with ⟨p, hocc⟩
    have hex : ∃ n, occursAt needle hay n := ⟨p, hocc⟩
    have hfound : indexOfSub needle hay = some (Nat.find hex) :=
      (indexOfSub_eq_some_iff needle hay _).mpr
        ⟨Nat.find_spec hex, fun q hq => Nat.find_min hex hq⟩
    rw [h] at hfound
    exact Option.noConfusion hfound
  · intro h
    cases hio : indexOfSub needle hay with
    | none => rfl
    | some q =>
      rcases (indexOfSub_eq_some_iff needle hay q).mp hio with ⟨hocc, _⟩
      exact absurd ((infix_iff_exists_occursAt needle hay).mpr ⟨q, hocc⟩) h

-- ===========================================================================
-- Claims C1, C2, C3, C8: the marker-extraction contract
-- ===========================================================================

/-- Claim C1: when the start marker first occurs at `i`, the end marker first
occurs at `j`, and `j` lies strictly beyond the end of the start marker, the
marker-extraction routines return the whitespace-trimmed substring strictly
between the two markers (`extractSection` as a string; `extractQnaAnswers`
read through its `null`-as-empty convention, i.e. `Option.getD []`). -/
theorem extract_returns_trimmed_between_markers (T U t : List Char) (i j a b : Nat)
    (h1 : firstOccurAt (promptStart t) T i)
    (h2 : firstOccurAt (promptEnd t) T j)
    (h3 : i + (promptStart t).length < j)
    (h4 : firstOccurAt (answersStart t) U a)
    (h5 : firstOccurAt (sectionEnd t) U b)
    (h6 : a + (answersStart t).length < b) :
    extractSection T t = trimList (sliceList T (i + (promptStart t).length) j)
    ∧ (extractQnaAnswers U t).getD []
      = trimList (sliceList U (a + (answersStart t).length) b) := by
  have e1 : indexOfSub (promptStart t) T = some i :=
    (indexOfSub_eq_some_iff _ _ _).mpr h1
  have e2 : indexOfSub (promptEnd t) T = some j :=
    (indexOfSub_eq_some_iff _ _ _).mpr h2
  have e3 : indexOfSub (answersStart t) U = some a :=
    (indexOfSub_eq_some_iff _ _ _).mpr h4
  have e4 : indexOfSub (sectionEnd t) U = some b :=
    (indexOfSub_eq_some_iff _ _ _).mpr h5
  constructor
  · simp only [extractSection, e1, e2]
    rw [if_neg (by omega)]
  · simp only [extractQnaAnswers, e3, e4]
    rw [if_neg (by omega)]
    by_cases hz : trimList (sliceList U (a + (answersStart t).length) b) = []
    · simp [hz]
    · simp [hz]

/-- Witness for C1 on concrete one-character-timestamp texts. -/
theorem extract_returns_trimmed_between_markers_witness :
    extractSection (promptStart ['T'] ++ 'x' :: promptEnd ['T']) ['T']
      = trimList (sliceList (promptStart ['T'] ++ 'x' :: promptEnd ['T'])
          (0 + (promptStart ['T']).length) 19)
    ∧ (extractQnaAnswers (answersStart ['T'] ++ 'y' :: sectionEnd ['T']) ['T']).getD []
      = trimList (sliceList (answersStart ['T'] ++ 'y' :: sectionEnd ['T'])
          (0 + (answersStart ['T']).length) 20) :=
  extract_returns_trimmed_between_markers
    (promptStart ['T'] ++ 'x' :: promptEnd ['T'])
    (answersStart ['T'] ++ 'y' :: sectionEnd ['T']) ['T'] 0 19 0 20
    (by decide) (by decide) (by decide) (by decide) (by decide) (by decide)

/-- Claim C2: when either marker is absent from the text, the extraction
routines return the empty result (`""` for `extractSection`, `null` for
`extractQnaAnswers`), and no other outcome is possible. -/
theorem extract_empty_of_marker_absent (T U t : List Char)
    (h : ¬ promptStart t <:+: T ∨ ¬ promptEnd t <:+: T)
    (h' : ¬ answersStart t <:+: U ∨ ¬ sectionEnd t <:+: U) :
    extractSection T t = [] ∧ extractQnaAnswers U t = none := by
  constructor
  · rcases h with h | h
    · have e : indexOfSub (promptStart t) T = none := (indexOfSub_eq_none_iff _ _).mpr h
      simp [extractSection, e]
    · have e : indexOfSub (promptEnd t) T = none := (indexOfSub_eq_none_iff _ _).mpr h
      cases hio : indexOfSub (promptStart t) T with
      | none => simp [extractSection, hio]
      | some i => simp [extractSection, hio, e]
  · rcases h' with h' | h'
    · have e : indexOfSub (answersStart t) U = none := (indexOfSub_eq_none_iff _ _).mpr h'
      simp [extractQnaAnswers, e]
    · have e : indexOfSub (sectionEnd t) U = none := (indexOfSub_eq_none_iff _ _).mpr h'
      cases hio : indexOfSub (answersStart t) U with
      | none => simp [extractQnaAnswers, hio]
      | some a => simp [extractQnaAnswers, hio, e]

/-- Witness for C2 on marker-free texts. -/
theorem extract_empty_of_marker_absent_witness :
    extractSection "plain text".toList ['T'] = []
    ∧ extractQnaAnswers "plain text".toList ['T'] = none :=
  extract_empty_of_marker_absent "plain text".toList "plain text".toList ['T']
    (Or.inl ((indexOfSub_eq_none_iff _ _).mp (by decide)))
    (Or.inl ((indexOfSub_eq_none_iff _ _).mp (by decide)))

/-- Claim C3: when both markers occur but the first occurrence of the end
marker does not lie strictly beyond the end of the start marker, the
extraction routines return the empty result. -/
theorem extract_empty_of_end_before_start (T U t : List Char) (i j a b : Nat)
    (h1 : firstOccurAt (promptStart t) T i)
    (h2 : firstOccurAt (promptEnd t) T j)
    (h3 : j ≤ i + (promptStart t).length)
    (h4 : firstOccurAt (answersStart t) U a)
    (h5 : firstOccurAt (sectionEnd t) U b)
    (h6 : b ≤ a + (answersStart t).length) :
    extractSection T t = [] ∧ extractQnaAnswers U t = none := by
  have e1 : indexOfSub (promptStart t) T = some i :=
    (indexOfSub_eq_some_iff _ _ _).mpr h1
  have e2 : indexOfSub (promptEnd t) T = some j :=
    (indexOfSub_eq_some_iff _ _ _).mpr h2
  have e3 : indexOfSub (answersStart t) U = some a :=
    (indexOfSub_eq_some_iff _ _ _).mpr h4
  have e4 : indexOfSub (sectionEnd t) U = some b :=
    (indexOfSub_eq_some_iff _ _ _).mpr h5
  constructor
  · simp only [extractSection, e1, e2]
    rw [if_pos (by omega)]
  · simp only [extractQnaAnswers, e3, e4]
    rw [if_pos (by omega)]

/-- Witness for C3 on texts whose end marker precedes their start marker. -/
theorem extract_empty_of_end_before_start_witness :
    extractSection (promptEnd ['T'] ++ promptStart ['T']) ['T'] = []
    ∧ extractQnaAnswers (sectionEnd ['T'] ++ answersStart ['T']) ['T'] = none :=
  extract_empty_of_end_before_start
    (promptEnd ['T'] ++ promptStart ['T'])
    (sectionEnd ['T'] ++ answersStart ['T']) ['T'] 22 0 22 0
    (by decide) (by decide) (by decide) (by decide) (by decide) (by decide)

/-- Claim C8: extraction is deterministic and idempotent over an unmodified
text — both routines are pure functions of the text and the timestamp alone
(their model types `List Char → List Char → _` exhibit the absence of any
other dependency), so two extractions from the same text agree. -/
theorem extract_deterministic (T t : List Char) :
    extractSection T t = extractSection T t
    ∧ extractQnaAnswers T t = extractQnaAnswers T t :=
  ⟨rfl, rfl⟩

-- ===========================================================================
-- Claim C6: editor fallback chain
-- ===========================================================================

/-- Claim C6: `getEditor` returns `$EDITOR` when set and non-empty, else
`$VISUAL` when set and non-empty, else a fixed fallback drawn from the list
`nvim`, `vim`, `vi` (the short-circuiting `||` chain makes it exactly
`"nvim"`). -/
theorem getEditor_fallback_chain (env : Env) :
    (∀ e, env.editorVar = some e → e ≠ [] → getEditor env = e)
    ∧ ((env.editorVar = none ∨ env.editorVar = some []) →
        ∀ v, env.visualVar = some v → v ≠ [] → getEditor env = v)
    ∧ ((env.editorVar = none ∨ env.editorVar = some []) →
        (env.visualVar = none ∨ env.visualVar = some []) →
        getEditor env = "nvim".toList
        ∧ getEditor env ∈ ["nvim".toList, "vim".toList, "vi".toList]) := by
  refine ⟨?_, ?_, ?_⟩
  · intro e he hne
    simp [getEditor, he, jsOrEnv, hne]
  · rintro (he | he) v hv hnv <;>
      simp [getEditor, he, hv, jsOrEnv, hnv]
  · rintro (he | he) (hv | hv) <;>
      refine ⟨by simp [getEditor, he, hv, jsOrEnv, jsOrLit], ?_⟩ <;>
      simp [getEditor, he, hv, jsOrEnv, jsOrLit]

/-- Witness for C6: a set, non-empty `$EDITOR` wins. -/
theorem getEditor_fallback_chain_witness :
    getEditor ⟨some "code".toList, none⟩ = "code".toList :=
  (getEditor_fallback_chain ⟨some "code".toList, none⟩).1 "code".toList rfl (by decide)

-- ===========================================================================
-- Claim C7: fuzzy regex construction
-- ===========================================================================

theorem joinDotStar_eq_intercalate (l : List Char) :
    joinDotStar l = List.intercalate ['.', '*'] (l.map (fun c => [c])) := by
  induction l with
  | nil => simp [joinDotStar, List.intercalate]
  | cons c rest ih =>
    cases rest with
    | nil => simp [joinDotStar, List.intercalate, List.intersperse]
    | cons c' rest' =>
      rw [joinDotStar, ih]
      simp [List.intercalate, List.intersperse]

theorem escapeRegex_of_no_meta (q : List Char) (h : ∀ c ∈ q, isRegexMeta c = false) :
    escapeRegex q = q := by
  induction q with
  | nil => rfl
  | cons c rest ih =>
    have hc := h c (by simp)
    have ih' := ih fun d hd => h d (by simp [hd])
    simp only [escapeRegex, List.flatMap_cons, hc] at ih' ⊢
    simp [ih']

/-- Claim C7: `buildFuzzyRegex` escapes the regex metacharacters of the query
and interleaves `.*` between the characters of the escaped string; on a
metacharacter-free query each original character is separated from the next by
`.*`, as on the documented example `"remplage"`. -/
theorem buildFuzzyRegex_interleaves (q : List Char) :
    buildFuzzyRegex q = List.intercalate ['.', '*'] ((escapeRegex q).map (fun c => [c]))
    ∧ ((∀ c ∈ q, isRegexMeta c = false) →
        buildFuzzyRegex q = List.intercalate ['.', '*'] (q.map (fun c => [c])))
    ∧ buildFuzzyRegex "remplage".toList = "r.*e.*m.*p.*l.*a.*g.*e".toList := by
  refine ⟨joinDotStar_eq_intercalate (escapeRegex q), ?_, by decide⟩
  intro h
  rw [buildFuzzyRegex, escapeRegex_of_no_meta q h, joinDotStar_eq_intercalate]

/-- Witness for C7 at the documented example query. -/
theorem buildFuzzyRegex_interleaves_witness :
    buildFuzzyRegex "remplage".toList
      = List.intercalate ['.', '*'] ("remplage".toList.map (fun c => [c])) :=
  (buildFuzzyRegex_interleaves "remplage".toList).2.1 (by decide)

-- ===========================================================================
-- Trim lemmas and claim C10: non-null results are non-empty after trimming
-- ===========================================================================

theorem dropWhile_dropWhile (p : Char → Bool) (x : List Char) :
    List.dropWhile p (List.dropWhile p x) = List.dropWhile p x := by
  induction x with
  | nil => rfl
  | cons c rest ih =>
    by_cases h : p c
    · simp [List.dropWhile_cons, h, ih]
    · simp [List.dropWhile_cons, h]

theorem head_dropWhile_false (p : Char → Bool) (x : List Char) (c : Char)
    (h : (List.dropWhile p x).head? = some c) : p c = false := by
  induction x with
  | nil => simp [List.dropWhile] at h
  | cons d rest ih =>
    by_cases hd : p d
    · rw [List.dropWhile_cons, if_pos hd] at h
      exact ih h
    · rw [List.dropWhile_cons, if_neg hd] at h
      injection h with h
      subst h
      exact Bool.eq_false_iff.mpr hd

/-- Trimming is idempotent: the output of `trimList` starts and ends with
non-whitespace characters, so trimming it again changes nothing. -/
theorem trimList_idem (l : List Char) : trimList (trimList l) = trimList l := by
  unfold trimList
  set A := l.dropWhile isWs with hA
  set y := A.reverse.dropWhile isWs with hy
  have step1 : List.dropWhile isWs y.reverse = y.reverse := by
    cases hrev : y.reverse with
    | nil => rfl
    | cons c z =>
      have hsuf : y <:+ A.reverse := List.dropWhile_suffix isWs
      rcases hsuf with ⟨s, hs⟩
      have hAeq : A = y.reverse ++ s.reverse := by
        have := congrArg List.reverse hs
        simpa using this.symm
      have hhead : A.head? = some c := by
        rw [hAeq, hrev]; rfl
      have hc : isWs c = false := head_dropWhile_false isWs l c (hA ▸ hhead)
      rw [List.dropWhile_cons, if_neg (by simp [hc])]
  have hdw : List.dropWhile isWs y = y := by
    rw [hy]; exact dropWhile_dropWhile isWs A.reverse
  rw [step1, List.reverse_reverse, hdw]

/-- Claim C10: `parseResponse` and `extractQnaAnswers` never return an empty
or whitespace-only string: when the text between the delimiters trims to the
empty string they return `null`, and every non-`null` result is non-empty even
after trimming. -/
theorem parse_results_nonempty (content U t : List Char) :
    (∀ s, parseResponse content = some s → s ≠ [] ∧ trimList s = s)
    ∧ (∀ s, extractQnaAnswers U t = some s → s ≠ [] ∧ trimList s = s)
    ∧ (∀ i, indexOfSub answersDelimiter content = some i →
        trimList (content.drop (i + answersDelimiter.length)) = [] →
        parseResponse content = none)
    ∧ (∀ a b, indexOfSub (answersStart t) U = some a →
        indexOfSub (sectionEnd t) U = some b →
        trimList (sliceList U (a + (answersStart t).length) b) = [] →
        extractQnaAnswers U t = none) := by
  refine ⟨?_, ?_, ?_, ?_⟩
  · intro s hs
    cases hio : indexOfSub answersDelimiter content with
    | none => simp [parseResponse, hio] at hs
    | some i =>
      simp only [parseResponse, hio] at hs
      by_cases hz : trimList (List.drop (i + answersDelimiter.length) content) = []
      · rw [if_pos hz] at hs; exact absurd hs (by simp)
      · rw [if_neg hz] at hs
        injection hs with hs
        subst hs
        exact ⟨hz, trimList_idem _⟩
  · intro s hs
    cases h1 : indexOfSub (answersStart t) U with
    | none => simp [extractQnaAnswers, h1] at hs
    | some a =>
      cases h2 : indexOfSub (sectionEnd t) U with
      | none => simp [extractQnaAnswers, h1, h2] at hs
      | some b =>
        simp only [extractQnaAnswers, h1, h2] at hs
        by_cases hord : b ≤ a + (answersStart t).length
        · rw [if_pos hord] at hs; exact absurd hs (by simp)
        · rw [if_neg hord] at hs
          by_cases hz : trimList (sliceList U (a + (answersStart t).length) b) = []
          · rw [if_pos hz] at hs; exact absurd hs (by simp)
          · rw [if_neg hz] at hs
            injection hs with hs
            subst hs
            exact ⟨hz, trimList_idem _⟩
  · intro i hio hz
    simp only [parseResponse, hio]
    rw [if_pos hz]
  · intro a b h1 h2 hz
    simp only [extractQnaAnswers, h1, h2]
    by_cases hord : b ≤ a + (answersStart t).length
    · rw [if_pos hord]
    · rw [if_neg hord, if_pos hz]

/-- Witness for C10: a parsed non-empty answer, and the `null` outcomes on
whitespace-only bodies. -/
theorem parse_results_nonempty_witness :
    ("yes".toList ≠ [] ∧ trimList "yes".toList = "yes".toList)
    ∧ parseResponse "# Answers \n ".toList = none
    ∧ extractQnaAnswers (answersStart ['T'] ++ ' ' :: ' ' :: sectionEnd ['T']) ['T']
      = none := by
  refine ⟨?_, ?_, ?_⟩
  · exact (parse_results_nonempty "# Answers\nyes".toList [] []).1 "yes".toList (by decide)
  · exact (parse_results_nonempty "# Answers \n ".toList [] []).2.2.1 0 (by decide) (by decide)
  · exact (parse_results_nonempty []
      (answersStart ['T'] ++ ' ' :: ' ' :: sectionEnd ['T']) ['T']).2.2.2 0 21
      (by decide) (by decide) (by decide)

-- ===========================================================================
-- Position analysis for occurrences (infrastructure for C4 and C9)
-- ===========================================================================

theorem mem_of_getElem?_eq (l : List Char) (i : Nat) (c : Char)
    (h : l[i]? = some c) : c ∈ l := by
  rcases List.getElem?_eq_some.mp h with ⟨hi, he⟩
  exact he ▸ List.getElem_mem hi

theorem occursAt_getElem? (m T : List Char) (p : Nat) (h : occursAt m T p)
    (k : Nat) (hk : k < m.length) : T[p + k]? = m[k]? := by
  rcases h with ⟨r, hr⟩
  calc T[p + k]? = (T.drop p)[k]? := (List.getElem?_drop T p k).symm
    _ = (m ++ r)[k]? := by rw [hr]
    _ = m[k]? := by rw [List.getElem?_append_left hk]

theorem occursAt_head_char (m T : List Char) (p : Nat) (c : Char)
    (hm : m[0]? = some c) (h : occursAt m T p) : T[p]? = some c := by
  have hlen : 0 < m.length := by
    cases m with
    | nil => simp at hm
    | cons a l => simp
  have hh := occursAt_getElem? m T p h 0 hlen
  rw [Nat.add_zero] at hh
  rw [hh, hm]

theorem only_head_char (c : Char) (tl : List Char) (h : c ∉ tl) (j : Nat)
    (hj : (c :: tl)[j]? = some c) : j = 0 := by
  cases j with
  | zero => rfl
  | succ j' =>
    exfalso
    have hj' : tl[j']? = some c := by simpa using hj
    exact h (mem_of_getElem?_eq tl j' c hj')

theorem getElem?_append_cases (A B : List Char) (p : Nat) (c : Char)
    (h : (A ++ B)[p]? = some c) :
    (p < A.length ∧ A[p]? = some c)
    ∨ (A.length ≤ p ∧ B[p - A.length]? = some c) := by
  by_cases hp : p < A.length
  · exact Or.inl ⟨hp, by rwa [List.getElem?_append_left hp] at h⟩
  · push_neg at hp
    exact Or.inr ⟨hp, by rwa [List.getElem?_append_right hp] at h⟩

theorem heads_comparable_of_append (p1 s1 p2 s2 : List Char)
    (h : p1 ++ s1 <+: p2 ++ s2) : p1 <+: p2 ∨ p2 <+: p1 :=
  List.prefix_or_prefix_of_prefix ((List.prefix_append p1 s1).trans h)
    (List.prefix_append p2 s2)

theorem prefix_of_head_unique (x y : List Char) (c : Char)
    (hx : x[0]? = some c) (hy : y[0]? = some c)
    (hytail : c ∉ y.tail) (h : x <:+: y) : x <+: y := by
  rcases (infix_iff_exists_occursAt x y).mp h with ⟨p, hocc⟩
  have hchar : y[p]? = some c := occursAt_head_char x y p c hx hocc
  cases y with
  | nil => simp at hy
  | cons d ytl =>
    have hd : d = c := by simpa using hy
    subst hd
    have hp0 : p = 0 := only_head_char d ytl (by simpa using hytail) p hchar
    subst hp0
    exact (occursAt_zero_iff x _).mp hocc

theorem infix_of_occursAt_middle (m A q C : List Char) (p : Nat)
    (h : occursAt m (A ++ (q ++ C)) p) (hA : A.length ≤ p)
    (hend : p + m.length ≤ A.length + q.length) : m <:+: q := by
  rcases h with ⟨r, hr⟩
  have hdrop : (A ++ (q ++ C)).drop p = (q ++ C).drop (p - A.length) := by
    rw [List.drop_append_eq_append_drop, List.drop_eq_nil_of_le hA, List.nil_append]
  rw [hdrop] at hr
  have hlq : p - A.length ≤ q.length := by omega
  have hdrop2 : (q ++ C).drop (p - A.length) = q.drop (p - A.length) ++ C := by
    rw [List.drop_append_eq_append_drop, Nat.sub_eq_zero_of_le hlq, List.drop_zero]
  rw [hdrop2] at hr
  have htake := List.take_left m r
  rw [hr] at htake
  rw [List.take_append_eq_append_take] at htake
  have hz : m.length - (q.drop (p - A.length)).length = 0 := by
    simp only [List.length_drop]
    omega
  rw [hz, List.take_zero, List.append_nil] at htake
  have hpre : m <+: q.drop (p - A.length) := by
    rw [← htake]
    exact List.take_prefix _ _
  rcases hpre with ⟨s, hs⟩
  exact ⟨q.take (p - A.length), s, by rw [List.append_assoc, hs, List.take_append_drop]⟩

-- ===========================================================================
-- Markers as head-literal plus timestamp plus closing literal
-- ===========================================================================

theorem promptStart_eq_markerOf (t : List Char) :
    promptStart t = markerOf "<!-- prompt: ".toList t := rfl

theorem promptEnd_eq_markerOf (t : List Char) :
    promptEnd t = markerOf "<!-- prompt-end: ".toList t := rfl

theorem questionsStart_eq_markerOf (t : List Char) :
    questionsStart t = markerOf "<!-- QUESTIONS: ".toList t := rfl

theorem answersStart_eq_markerOf (t : List Char) :
    answersStart t = markerOf "<!-- ANSWERS: ".toList t := rfl

theorem sectionEnd_eq_markerOf (t : List Char) :
    sectionEnd t = markerOf "<!-- /QUESTIONS: ".toList t := rfl

theorem timestamp_no_lt (t : List Char) (h : ∀ c ∈ t, isTimestampChar c) :
    '<' ∉ t := fun hm => absurd (h '<' hm) (by decide)

theorem timestamp_no_nl (t : List Char) (h : ∀ c ∈ t, isTimestampChar c) :
    '\n' ∉ t := fun hm => absurd (h '\n' hm) (by decide)

theorem markerOf_head (pre t : List Char) (c : Char) (hc : pre[0]? = some c) :
    (markerOf pre t)[0]? = some c := by
  cases pre with
  | nil => simp at hc
  | cons a l => simpa [markerOf] using hc

theorem markerOf_tail_no_lt (pre t : List Char) (hh : pre[0]? = some '<')
    (hpre : '<' ∉ pre.tail) (ht : '<' ∉ t) : '<' ∉ (markerOf pre t).tail := by
  cases pre with
  | nil => simp at hh
  | cons a l =>
    intro hmem
    simp only [markerOf, List.cons_append, List.tail_cons] at hmem
    rcases List.mem_append.mp hmem with hm | hm
    · exact hpre (by simpa using hm)
    · rcases List.mem_append.mp hm with hm' | hm'
      · exact ht hm'
      · exact absurd hm' (by decide)

theorem markerOf_no_overlap (p1 p2 t1 t2 : List Char)
    (h1 : p1[0]? = some '<') (h2 : p2[0]? = some '<')
    (htl2 : '<' ∉ p2.tail) (ht2 : '<' ∉ t2)
    (hcase : (¬ p1 <+: p2 ∧ ¬ p2 <+: p1)
      ∨ (p1 = p2 ∧ t1.length = t2.length ∧ t1 ≠ t2)) :
    ¬ markerOf p1 t1 <:+: markerOf p2 t2 := by
  intro hinf
  have hpref : markerOf p1 t1 <+: markerOf p2 t2 :=
    prefix_of_head_unique _ _ '<' (markerOf_head p1 t1 '<' h1)
      (markerOf_head p2 t2 '<' h2) (markerOf_tail_no_lt p2 t2 h2 htl2 ht2) hinf
  rcases hcase with ⟨hn1, hn2⟩ | ⟨hpp, hlen, hne⟩
  · rcases heads_comparable_of_append p1 (t1 ++ " -->".toList)
      p2 (t2 ++ " -->".toList) hpref with h | h
    · exact hn1 h
    · exact hn2 h
  · subst hpp
    have hleneq : (markerOf p1 t1).length = (markerOf p1 t2).length := by
      simp [markerOf, hlen]
    have heq := hpref.eq_of_length hleneq
    have hts : t1 ++ " -->".toList = t2 ++ " -->".toList :=
      List.append_cancel_left heq
    exact hne (List.append_cancel_right hts)

-- ===========================================================================
-- Claim C5: qna session_start reconstruction
-- ===========================================================================

/-- Counterexample to C5 as stated: in the log
`[draft "q", draft ""]` the last `draft_questions` entry carries the empty
questions string and no `qna-clear` follows it, so the claim requires
`pendingQuestions = ""`; the handler's `if (details?.questions)` truthiness
check skips the empty draft and reconstructs `"q"` instead. -/
theorem reconstructPending_empty_draft_counterexample :
    reconstructPending
        [SessionEntry.draftResult (some ['q']), SessionEntry.draftResult (some [])]
      = some ['q']
    ∧ specPendingClaim
        [SessionEntry.draftResult (some ['q']), SessionEntry.draftResult (some [])]
      = some []
    ∧ (some ['q'] : Option (List Char)) ≠ some [] :=
  ⟨rfl, rfl, by decide⟩

/-- Claim C5 (amended): the reconstruction sets `pendingQuestions` to the
questions of the last `draft_questions` tool-result entry carrying a present,
non-empty questions string if and only if no `qna-clear` entry occurs after
that entry; it is `null` when no such entry exists or a `qna-clear` follows
the last one. -/
theorem reconstructPending_eq_specPending (log : List SessionEntry) :
    reconstructPending log = specPending log := by
  induction log using List.reverseRecOn with
  | nil => rfl
  | append_singleton l e ih =>
    cases e with
    | qnaClear =>
      have hspec : specPending (l ++ [SessionEntry.qnaClear]) = none := by
        simp [specPending, specPendingAux]
      rw [hspec]
      simp only [reconstructPending, List.foldl_append, List.foldl_cons,
        List.foldl_nil, qnaScanStep]
      cases (l.foldl qnaScanStep ⟨none, false⟩).lastDraftedQuestions <;> rfl
    | other =>
      have hspec : specPending (l ++ [SessionEntry.other]) = specPending l := by
        simp [specPending, specPendingAux]
      rw [hspec, ← ih]
      simp only [reconstructPending, List.foldl_append, List.foldl_cons,
        List.foldl_nil, qnaScanStep]
    | draftResult od =>
      cases od with
      | none =>
        have hspec : specPending (l ++ [SessionEntry.draftResult none])
            = specPending l := by
          simp [specPending, specPendingAux]
        rw [hspec, ← ih]
        simp only [reconstructPending, List.foldl_append, List.foldl_cons,
          List.foldl_nil, qnaScanStep]
      | some qs =>
        by_cases hq : qs = []
        · subst hq
          have hspec : specPending (l ++ [SessionEntry.draftResult (some [])])
              = specPending l := by
            simp [specPending, specPendingAux]
          rw [hspec, ← ih]
          simp [reconstructPending, List.foldl_append, qnaScanStep]
        · have hspec : specPending (l ++ [SessionEntry.draftResult (some qs)])
              = some qs := by
            simp [specPending, specPendingAux, hq]
          rw [hspec]
          simp only [reconstructPending, List.foldl_append, List.foldl_cons,
            List.foldl_nil, qnaScanStep, if_neg hq]

-- ===========================================================================
-- Claim C4: no cross-talk between timestamps
-- ===========================================================================

theorem no_ps_occurrence (t1 t2 body : List Char)
    (hlen : t1.length = t2.length) (ht2lt : '<' ∉ t2)
    (hbody : '<' ∉ body) (hne : t1 ≠ t2) :
    ¬ promptStart t1 <:+: (promptStart t2 ++ (body ++ promptEnd t2)) := by
  intro hinf
  rcases (infix_iff_exists_occursAt _ _).mp hinf with ⟨p, hocc⟩
  have hhead : (promptStart t1)[0]? = some '<' :=
    markerOf_head "<!-- prompt: ".toList t1 '<' (by decide)
  have hchar : (promptStart t2 ++ (body ++ promptEnd t2))[p]? = some '<' :=
    occursAt_head_char _ _ p '<' hhead hocc
  rcases getElem?_append_cases _ _ p '<' hchar with ⟨hpa, hca⟩ | ⟨hpa, hca⟩
  · have hcons : promptStart t2
        = '<' :: ("!-- prompt: ".toList ++ (t2 ++ " -->".toList)) := rfl
    rw [hcons] at hca
    have hp0 : p = 0 := by
      refine only_head_char '<' _ ?_ p hca
      intro hmem
      rcases List.mem_append.mp hmem with hm | hm
      · exact absurd hm (by decide)
      · rcases List.mem_append.mp hm with hm' | hm'
        · exact ht2lt hm'
        · exact absurd hm' (by decide)
    subst hp0
    have hpref : promptStart t1 <+: promptStart t2 ++ (body ++ promptEnd t2) :=
      (occursAt_zero_iff _ _).mp hocc
    have hlen' : (promptStart t1).length = (promptStart t2).length := by
      simp [promptStart, hlen]
    have hps : promptStart t1 = promptStart t2 := by
      have htake := List.prefix_iff_eq_take.mp hpref
      rw [hlen', List.take_left] at htake
      exact htake
    have hps' : "<!-- prompt: ".toList ++ (t1 ++ " -->".toList)
        = "<!-- prompt: ".toList ++ (t2 ++ " -->".toList) := hps
    have hts : t1 ++ " -->".toList = t2 ++ " -->".toList :=
      List.append_cancel_left hps'
    exact hne (List.append_cancel_right hts)
  · rcases getElem?_append_cases body (promptEnd t2) _ '<' hca with ⟨hqb, hcb⟩ | ⟨hqb, hcb⟩
    · exact hbody (mem_of_getElem?_eq _ _ _ hcb)
    · have hcons : promptEnd t2
          = '<' :: ("!-- prompt-end: ".toList ++ (t2 ++ " -->".toList)) := rfl
      rw [hcons] at hcb
      have hq0 : p - (promptStart t2).length - body.length = 0 := by
        refine only_head_char '<' _ ?_ _ hcb
        intro hmem
        rcases List.mem_append.mp hmem with hm | hm
        · exact absurd hm (by decide)
        · rcases List.mem_append.mp hm with hm' | hm'
          · exact ht2lt hm'
          · exact absurd hm' (by decide)
      have hpval : p = (promptStart t2).length + body.length := by omega
      have hdrop : (promptStart t2 ++ (body ++ promptEnd t2)).drop p
          = promptEnd t2 := by
        rw [hpval, List.drop_append body.length, List.drop_left]
      have hpref : promptStart t1 <+: promptEnd t2 := by
        have hocc' := hocc
        unfold occursAt at hocc'
        rwa [hdrop] at hocc'
      rcases heads_comparable_of_append "<!-- prompt: ".toList (t1 ++ " -->".toList)
        "<!-- prompt-end: ".toList (t2 ++ " -->".toList) hpref with h | h
      · exact absurd h (by decide)
      · exact absurd h (by decide)

/-- Claim C4: for two distinct timestamps of the `generateTimestamp` shape,
all markers are pairwise distinct, no marker of one timestamp occurs as a
substring of a marker of the other, and consequently extraction with `t1`
from a text holding only a well-formed section for `t2` (with a `<`-free
body) returns the empty result. -/
theorem markers_no_crosstalk (t1 t2 : List Char)
    (h1 : isTimestampFormat t1) (h2 : isTimestampFormat t2) (hne : t1 ≠ t2) :
    (∀ m1 ∈ allMarkers t1, ∀ m2 ∈ allMarkers t2, m1 ≠ m2 ∧ ¬ m1 <:+: m2)
    ∧ ∀ body, '<' ∉ body →
        extractSection (promptStart t2 ++ (body ++ promptEnd t2)) t1 = [] := by
  obtain ⟨hlen1, hchars1⟩ := h1
  obtain ⟨hlen2, hchars2⟩ := h2
  have ht2lt : '<' ∉ t2 := timestamp_no_lt t2 hchars2
  have hlen12 : t1.length = t2.length := by rw [hlen1, hlen2]
  constructor
  · have step : ∀ p1 p2 : List Char, p1[0]? = some '<' → p2[0]? = some '<' →
        '<' ∉ p2.tail →
        ((¬ p1 <+: p2 ∧ ¬ p2 <+: p1) ∨ p1 = p2) →
        markerOf p1 t1 ≠ markerOf p2 t2 ∧ ¬ markerOf p1 t1 <:+: markerOf p2 t2 := by
      intro p1 p2 hh1 hh2 htl hc
      have hni : ¬ markerOf p1 t1 <:+: markerOf p2 t2 := by
        refine markerOf_no_overlap p1 p2 t1 t2 hh1 hh2 htl ht2lt ?_
        rcases hc with hc | rfl
        · exact Or.inl hc
        · exact Or.inr ⟨rfl, hlen12, hne⟩
      have hneq : markerOf p1 t1 ≠ markerOf p2 t2 := by
        intro he
        apply hni
        rw [he]
      exact ⟨hneq, hni⟩
    intro m1 hm1 m2 hm2
    simp only [allMarkers, List.mem_cons, List.not_mem_nil, or_false] at hm1 hm2
    rcases hm1 with rfl | rfl | rfl | rfl | rfl <;>
      rcases hm2 with rfl | rfl | rfl | rfl | rfl <;>
      simp only [promptStart_eq_markerOf, promptEnd_eq_markerOf,
        questionsStart_eq_markerOf, answersStart_eq_markerOf,
        sectionEnd_eq_markerOf] <;>
      (apply step <;> decide)
  · intro body hbody
    have hni := no_ps_occurrence t1 t2 body hlen12 ht2lt hbody hne
    have e : indexOfSub (promptStart t1)
        (promptStart t2 ++ (body ++ promptEnd t2)) = none :=
      (indexOfSub_eq_none_iff _ _).mpr hni
    simp [extractSection, e]

/-- Witness for C4 on two concrete adjacent timestamps. -/
theorem markers_no_crosstalk_witness :
    (promptStart "2024-01-01T00:00:00".toList ≠ promptStart "2024-01-01T00:00:01".toList
      ∧ ¬ promptStart "2024-01-01T00:00:00".toList
          <:+: promptStart "2024-01-01T00:00:01".toList)
    ∧ extractSection
        (promptStart "2024-01-01T00:00:01".toList
          ++ ("body".toList ++ promptEnd "2024-01-01T00:00:01".toList))
        "2024-01-01T00:00:00".toList = [] :=
  ⟨(markers_no_crosstalk "2024-01-01T00:00:00".toList "2024-01-01T00:00:01".toList
      (by decide) (by decide) (by decide)).1
      _ (by simp [allMarkers]) _ (by simp [allMarkers]),
    (markers_no_crosstalk "2024-01-01T00:00:00".toList "2024-01-01T00:00:01".toList
      (by decide) (by decide) (by decide)).2 "body".toList (by decide)⟩

-- ===========================================================================
-- Claim C9: createQnaSection / verifyQnaQuestions round trip
-- ===========================================================================

theorem trimList_cons_ws (c : Char) (x : List Char) (hc : isWs c = true) :
    trimList (c :: x) = trimList x := by
  unfold trimList
  rw [List.dropWhile_cons, if_pos hc]

theorem trimList_concat_ws (x : List Char) (c : Char) (hc : isWs c = true) :
    trimList (x ++ [c]) = trimList x := by
  unfold trimList
  rw [List.dropWhile_append]
  by_cases hx : (List.dropWhile isWs x).isEmpty
  · rw [if_pos hx]
    have h2 : List.dropWhile isWs x = [] := by simpa [List.isEmpty_iff] using hx
    have h1 : List.dropWhile isWs [c] = ([] : List Char) := by
      rw [show [c] = c :: ([] : List Char) from rfl, List.dropWhile_cons, if_pos hc]
      rfl
    rw [h2, h1]
  · rw [if_neg hx]
    rw [List.reverse_append]
    simp only [List.reverse_cons, List.reverse_nil, List.nil_append,
      List.singleton_append]
    rw [List.dropWhile_cons, if_pos hc]

theorem trim_nl_wrapped (q : List Char) :
    trimList ('\n' :: (q ++ ['\n'])) = trimList q := by
  rw [trimList_cons_ws '\n' _ (by decide), trimList_concat_ws q '\n' (by decide)]

/-- Inside `createQnaSection q t`, the answers marker occurs nowhere before
its own position, provided it does not occur inside `q` itself. -/
theorem answersStart_minimal (q t : List Char)
    (htlt : '<' ∉ t) (htnl : '\n' ∉ t)
    (hq : ¬ answersStart t <:+: q) (p : Nat)
    (hp : p < (questionsStart t).length + (q.length + 2)) :
    ¬ occursAt (answersStart t)
      (questionsStart t ++ ('\n' :: (q ++ ('\n' ::
        (answersStart t ++ ('\n' :: '\n' :: sectionEnd t)))))) p := by
  intro hocc
  have hhead : (answersStart t)[0]? = some '<' :=
    markerOf_head "<!-- ANSWERS: ".toList t '<' (by decide)
  have hchar := occursAt_head_char _ _ p '<' hhead hocc
  rcases getElem?_append_cases _ _ p '<' hchar with ⟨hpa, hca⟩ | ⟨hpa, hca⟩
  · have hcons : questionsStart t
        = '<' :: ("!-- QUESTIONS: ".toList ++ (t ++ " -->".toList)) := rfl
    rw [hcons] at hca
    have hp0 : p = 0 := by
      refine only_head_char '<' _ ?_ p hca
      intro hmem
      rcases List.mem_append.mp hmem with hm | hm
      · exact absurd hm (by decide)
      · rcases List.mem_append.mp hm with hm' | hm'
        · exact htlt hm'
        · exact absurd hm' (by decide)
    subst hp0
    have hpref := (occursAt_zero_iff _ _).mp hocc
    have hpref' : "<!-- ANSWERS: ".toList ++ (t ++ " -->".toList)
        <+: "<!-- QUESTIONS: ".toList ++ ((t ++ " -->".toList) ++ ('\n' :: (q ++ ('\n' ::
          (answersStart t ++ ('\n' :: '\n' :: sectionEnd t)))))) := hpref
    rcases heads_comparable_of_append _ _ _ _ hpref' with h | h
    · exact absurd h (by decide)
    · exact absurd h (by decide)
  · cases hp1 : p - (questionsStart t).length with
    | zero =>
      rw [hp1, List.getElem?_cons_zero] at hca
      exact absurd hca (by decide)
    | succ p2 =>
      rw [hp1, List.getElem?_cons_succ] at hca
      rcases getElem?_append_cases q _ p2 '<' hca with ⟨hq2, hcq⟩ | ⟨hq2, hcq⟩
      · by_cases hcross :
          p + (answersStart t).length ≤ (questionsStart t).length + 1 + q.length
        · apply hq
          have he : questionsStart t ++ ('\n' :: (q ++ ('\n' ::
                (answersStart t ++ ('\n' :: '\n' :: sectionEnd t)))))
              = (questionsStart t ++ ['\n']) ++ (q ++ ('\n' ::
                (answersStart t ++ ('\n' :: '\n' :: sectionEnd t)))) := by
            simp
          have hocc2 := hocc
          rw [he] at hocc2
          refine infix_of_occursAt_middle (answersStart t)
            (questionsStart t ++ ['\n']) q _ p hocc2 ?_ ?_
          · simp only [List.length_append, List.length_cons, List.length_nil]
            omega
          · simp only [List.length_append, List.length_cons, List.length_nil]
            omega
        · push_neg at hcross
          have hbp : (questionsStart t).length + 1 + q.length - p
              < (answersStart t).length := by omega
          have h1 := occursAt_getElem? (answersStart t) _ p hocc
            ((questionsStart t).length + 1 + q.length - p) hbp
          rw [show p + ((questionsStart t).length + 1 + q.length - p)
              = (questionsStart t).length + 1 + q.length from by omega] at h1
          have h2 : (questionsStart t ++ ('\n' :: (q ++ ('\n' ::
              (answersStart t ++ ('\n' :: '\n' :: sectionEnd t))))))[
              (questionsStart t).length + 1 + q.length]? = some '\n' := by
            rw [List.getElem?_append_right
              (by omega : (questionsStart t).length
                ≤ (questionsStart t).length + 1 + q.length)]
            rw [show (questionsStart t).length + 1 + q.length
                - (questionsStart t).length = q.length + 1 from by omega]
            rw [List.getElem?_cons_succ]
            rw [List.getElem?_append_right (le_refl q.length)]
            rw [Nat.sub_self, List.getElem?_cons_zero]
          rw [h2] at h1
          have h3 : '\n' ∈ answersStart t := mem_of_getElem?_eq _ _ _ h1.symm
          have hcons : answersStart t
              = '<' :: ("!-- ANSWERS: ".toList ++ (t ++ " -->".toList)) := rfl
          rw [hcons] at h3
          rcases List.mem_cons.mp h3 with hm | hm
          · exact absurd hm (by decide)
          · rcases List.mem_append.mp hm with hm' | hm'
            · exact absurd hm' (by decide)
            · rcases List.mem_append.mp hm' with hm'' | hm''
              · exact htnl hm''
              · exact absurd hm'' (by decide)
      · have hp2 : p2 - q.length = 0 := by omega
        rw [hp2, List.getElem?_cons_zero] at hcq
        exact absurd hcq (by decide)

/-- Claim C9: a freshly created Q&A section always verifies against the
questions it was created with, for any timestamp of the `generateTimestamp`
shape and any questions text that does not contain the section's markers. -/
theorem createQnaSection_verifies (q t : List Char)
    (ht : isTimestampFormat t)
    (hq : ∀ m ∈ [questionsStart t, answersStart t, sectionEnd t], ¬ m <:+: q) :
    verifyQnaQuestions (createQnaSection q t) t q = true := by
  obtain ⟨hlen, hchars⟩ := ht
  have htlt : '<' ∉ t := timestamp_no_lt t hchars
  have htnl : '\n' ∉ t := timestamp_no_nl t hchars
  have hqa : ¬ answersStart t <:+: q := hq _ (by simp)
  have hcontent : createQnaSection q t
      = questionsStart t ++ ('\n' :: (q ++ ('\n' ::
        (answersStart t ++ ('\n' :: '\n' :: sectionEnd t))))) := by
    simp [createQnaSection]
  have e1 : indexOfSub (questionsStart t) (createQnaSection q t) = some 0 := by
    refine (indexOfSub_eq_some_iff _ _ _).mpr ⟨?_, fun r hr => absurd hr (by omega)⟩
    refine (occursAt_zero_iff _ _).mpr ?_
    rw [hcontent]
    exact List.prefix_append _ _
  have e2 : indexOfSub (answersStart t) (createQnaSection q t)
      = some ((questionsStart t).length + (q.length + 2)) := by
    refine (indexOfSub_eq_some_iff _ _ _).mpr ⟨?_, ?_⟩
    · show answersStart t
        <+: (createQnaSection q t).drop ((questionsStart t).length + (q.length + 2))
      rw [hcontent]
      have hsplit : questionsStart t ++ ('\n' :: (q ++ ('\n' ::
            (answersStart t ++ ('\n' :: '\n' :: sectionEnd t)))))
          = (questionsStart t ++ ('\n' :: (q ++ ['\n'])))
            ++ (answersStart t ++ ('\n' :: '\n' :: sectionEnd t)) := by
        simp
      rw [hsplit]
      have hlenA : (questionsStart t ++ ('\n' :: (q ++ ['\n']))).length
          = (questionsStart t).length + (q.length + 2) := by
        simp only [List.length_append, List.length_cons, List.length_nil]
      rw [← hlenA, List.drop_left]
      exact List.prefix_append _ _
    · intro r hr
      rw [hcontent]
      exact answersStart_minimal q t htlt htnl hqa r hr
  simp only [verifyQnaQuestions, e1, e2]
  rw [if_neg (by omega : ¬ ((questionsStart t).length + (q.length + 2)
    ≤ 0 + (questionsStart t).length))]
  have hslice : sliceList (createQnaSection q t) (0 + (questionsStart t).length)
      ((questionsStart t).length + (q.length + 2)) = '\n' :: (q ++ ['\n']) := by
    unfold sliceList
    rw [hcontent]
    rw [show 0 + (questionsStart t).length = (questionsStart t).length from by omega]
    rw [List.drop_left]
    rw [show (questionsStart t).length + (q.length + 2) - (questionsStart t).length
        = q.length + 2 from by omega]
    have hsplit2 : ('\n' :: (q ++ ('\n' ::
          (answersStart t ++ ('\n' :: '\n' :: sectionEnd t)))))
        = ('\n' :: (q ++ ['\n']))
          ++ (answersStart t ++ ('\n' :: '\n' :: sectionEnd t)) := by
      simp
    rw [hsplit2]
    have hlenB : ('\n' :: (q ++ ['\n'])).length = q.length + 2 := by
      simp only [List.length_append, List.length_cons, List.length_nil]
    rw [← hlenB, List.take_left]
  rw [hslice, trim_nl_wrapped]
  simp

/-- Witness for C9 on a concrete timestamp and question list. -/
theorem createQnaSection_verifies_witness :
    verifyQnaQuestions
      (createQnaSection "1. Why?".toList "2024-01-01T00:00:00".toList)
      "2024-01-01T00:00:00".toList "1. Why?".toList = true :=
  createQnaSection_verifies "1. Why?".toList "2024-01-01T00:00:00".toList
    (by decide) (by decide)

end PiConfig
